import Mathlib

/-!
# Verification of the FiDcomp compression pipeline (src/compress_utils.py)

This file gives a shallow embedding of the three-stage compression pipeline
(context selection, sentence selection, token selection) of
`src/compress_utils.py`, together with theorems settling the frozen claims
about it.

Modelling conventions:

* Python floats are modelled as `ℚ`.  NumPy float arrays become `List ℚ`.
  The IEEE value `nan` (which NumPy produces for the mean of an empty slice)
  has no counterpart in `ℚ`; the embedding represents a per-passage aggregate
  as `Option ℚ` with `none` standing for `nan`.
* External collaborators (the scoring tokenizer and the reference GPT
  tokenizer) are opaque in the source and enter the embedding as parameters:
  a `Tok` record of encode functions for the scoring tokenizer, and plain
  length functions (`encLen`, `initLen`, sentence lengths) for the reference
  tokenizer, which the source only ever uses through `len(encode(...))`.
* Python exceptions (`ValueError`, `IndexError`, `AssertionError`, NumPy's
  zero-size-reduction error) are modelled with `Except Err`.
* `np.argsort` is modelled as a stable sort of the index range by score.
  No claim proved below depends on the tie-breaking order of `np.argsort`.
-/

unseal Rat.add Rat.mul Rat.inv Rat.sub Rat.ofScientific

namespace FiDcomp

/-! ## Data model -/

/-- A retrieved passage, as the dicts in `compress_utils.py`: `text`, optional
`title`, the 1-based stable identity `org_idx`, and the `ctx_score` assigned
during context selection. -/
structure Ctx where
  text : String
  title : Option String
  org_idx : Nat
  ctx_score : ℚ
deriving Repr, DecidableEq

instance : Inhabited Ctx := ⟨⟨"", none, 0, 0⟩⟩

/-- Error conditions of the Python code: the two `raise ValueError` sites of
`get_ctx_scores` (invalid aggregation mode / invalid question mode), NumPy's
`ValueError` for a reduction over a zero-size array (`.max()` of an empty
slice), `IndexError` (`titles[0]` on an empty list, `np.where(...)[0][0]` with
no match), and a failing `assert`.  `nanScore` marks the one place where the
source would carry an IEEE `nan` (NumPy mean of an empty slice), which `ℚ`
cannot represent. -/
inductive Err where
  | invalidMode (s : String)
  | invalidQuestionMode (s : String)
  | emptyReduction
  | indexError
  | assertionError
  | nanScore
deriving Repr, DecidableEq

/-- The scoring tokenizer (an external collaborator), reduced to the
operations the source uses: `encode` and `batch_encode_plus`, both used only
through the token-id lists they return. -/
structure Tok where
  encode : String → List Int
  batchEncode : List String → List (List Int)

/-- Sequential `Except`-valued map, the shape of the accumulating `for` loops
in the source (`ctx_scores.append(...)` etc.): stops at the first error. -/
def mapE (f : α → Except Err β) : List α → Except Err (List β)
  | [] => Except.ok []
  | a :: l => do
      let b ← f a
      let t ← mapE f l
      Except.ok (b :: t)

/-! ## argsort and sorting -/

/-- Comparison of indices by their score, the order underlying `np.argsort`. -/
def scoreLE (s : List ℚ) (i j : Nat) : Prop :=
  s.getD i 0 ≤ s.getD j 0

instance (s : List ℚ) : DecidableRel (scoreLE s) :=
  fun _ _ => inferInstanceAs (Decidable (_ ≤ _))

instance (s : List ℚ) : IsTotal Nat (scoreLE s) := ⟨fun _ _ => le_total _ _⟩

instance (s : List ℚ) : IsTrans Nat (scoreLE s) := ⟨fun _ _ _ => le_trans⟩

/-- Model of `np.argsort(s)`: the indices `0, ..., len(s)-1` stably sorted by
ascending score. -/
def argsortAsc (s : List ℚ) : List Nat :=
  List.insertionSort (scoreLE s) (List.range s.length)

/-- Model of `np.argsort(s)[::-1]`: descending argsort. -/
def argsortDesc (s : List ℚ) : List Nat :=
  (argsortAsc s).reverse

/-- Model of `np.sort` / Python `sorted` on an integer index list. -/
def natSort (l : List Nat) : List Nat :=
  List.insertionSort (· ≤ ·) l

/-- Model of `np.cumsum`, carrying the running sum. -/
def cumsum (acc : ℚ) : List ℚ → List ℚ
  | [] => []
  | x :: xs => (acc + x) :: cumsum (acc + x) xs

/-! ## ScoreAligner: get_ctx_start_indices (compress_utils.py lines 89-115) -/

/-- Embeds `get_ctx_start_indices`.  `titles[0]` on an empty list is an
`IndexError`; the `assert`s demand all-present or all-absent titles; in the
all-absent branch the question string is truncated to its last 252 tokens
(`[-252:]`, modelled by dropping all but the last 252 entries). -/
def get_ctx_start_indices (tok : Tok) (question : String)
    (titles : List (Option String)) (patternStr : String) :
    Except Err (List Nat) :=
  match titles with
  | [] => Except.error Err.indexError
  | t0 :: _ =>
    let lenPattern := (tok.encode patternStr).length
    match t0 with
    | some _ =>
      if titles.all (fun t => t.isSome) then
        let questionTitle := titles.map (fun t =>
          match t with
          | some ti => "question: " ++ question ++ " title: " ++ ti
          | none => "")
        Except.ok ((tok.batchEncode questionTitle).map
          (fun ids => ids.length + lenPattern))
      else Except.error Err.assertionError
    | none =>
      if titles.all (fun t => t.isNone) then
        let q := "question: " ++ question
        let qIds := (tok.encode q).drop ((tok.encode q).length - 252)
        Except.ok (titles.map (fun _ => qIds.length + lenPattern))
      else Except.error Err.assertionError

/-! ## get_ctx_scores (compress_utils.py lines 118-154) -/

/-- Embeds the aggregation step of `get_ctx_scores` for one passage:
`scores[scores != 0][:end].mean() / .max() / .sum()` with `end` either `None`
(`include_end_token`) or `-1`.  NumPy's mean of an empty slice is `nan`
(modelled as `none`); its max of an empty slice raises; its sum is `0.0`.
An unknown mode raises `ValueError(f"Invalid mode: ...")`. -/
def aggregate (mode : String) (includeEndToken : Bool) (scores : List ℚ) :
    Except Err (Option ℚ) :=
  let nz := scores.filter (fun x => decide (x ≠ 0))
  let sl := if includeEndToken then nz else nz.dropLast
  if mode = "mean" then
    Except.ok (if sl.length = 0 then none else some (sl.sum / (sl.length : ℚ)))
  else if mode = "max" then
    match sl.max? with
    | none => Except.error Err.emptyReduction
    | some m => Except.ok (some m)
  else if mode = "sum" then
    Except.ok (some sl.sum)
  else
    Except.error (Err.invalidMode mode)

/-- Embeds `get_ctx_scores`: dispatch on `question_mode` (unknown values raise
`ValueError` before any aggregation), offset-drop in `exclude` mode, then the
per-passage aggregation loop. -/
def get_ctx_scores (mode questionMode : String) (includeEndToken : Bool)
    (tok : Tok) (question : String) (titles : List (Option String))
    (patternStr : String) (batchScores : List (List ℚ)) :
    Except Err (List (Option ℚ)) :=
  if questionMode = "include" then
    mapE (aggregate mode includeEndToken) batchScores
  else if questionMode = "exclude" then do
    let starts ← get_ctx_start_indices tok question titles patternStr
    mapE (aggregate mode includeEndToken)
      ((batchScores.zip starts).map (fun p => p.1.drop p.2))
  else
    Except.error (Err.invalidQuestionMode questionMode)

/-- The embedding works in `ℚ`, which has no `nan`: a `nan` aggregate (NumPy
mean of an empty slice) is surfaced as an explicit error instead of flowing
through the subsequent argsort as the source's float `nan` would. -/
def requireNumeric (vals : List (Option ℚ)) : Except Err (List ℚ) :=
  mapE (fun v => match v with
    | some q => Except.ok q
    | none => Except.error Err.nanScore) vals

/-! ## compress_contexts (compress_utils.py lines 157-215) -/

/-- Embeds the percentile branch of `compress_contexts` (lines 172-182):
normalize the scores to sum 1, find the first position of the descending
cumulative sum that strictly exceeds `ctx_score_cumsum`
(`np.where(... > ...)[0][0]` raises `IndexError` when there is none), bump a
zero index to 1, and keep that many top passages
(`np.argsort(ctx_scores)[::-1][:cum_ctx_index]`). -/
def percentileSelect (ctxScoreCumsum : ℚ) (ctxScores : List ℚ) :
    Except Err (List Nat) :=
  let norm := ctxScores.map (fun x => x / ctxScores.sum)
  let sortedDesc := (argsortDesc norm).map (fun i => norm.getD i 0)
  match (cumsum 0 sortedDesc).findIdx? (fun c => decide (ctxScoreCumsum < c)) with
  | none => Except.error Err.indexError
  | some k => Except.ok ((argsortDesc norm).take (if k = 0 then 1 else k))

/-- Embeds the greedy branch of `compress_contexts` (lines 183-198) as a fold
over the descending-sorted index list.  `encLen idx` is the reference-tokenizer
length of passage `idx`'s full rendered form (the `Document [n](Title: t) text`
wrapper, or the bare text for longbench datasets); `lenTotal` starts at the
length of the empty-context prompt.  When `comp_sent` is off, the loop breaks
before adding a passage that would move the total farther from `ctx_comp_len`
than stopping; after adding, it breaks once the total reaches the target.
Returns the selected indices and the final running length. -/
def greedyCtxLoop (compSent : Bool) (ctxCompLen : Int) (encLen : Nat → Int) :
    Int → List Nat → List Nat × Int
  | lenTotal, [] => ([], lenTotal)
  | lenTotal, idx :: rest =>
    if compSent = false ∧
        |lenTotal - ctxCompLen| < |lenTotal + encLen idx - ctxCompLen| then
      ([], lenTotal)
    else
      let lenTotal1 := lenTotal + encLen idx
      if ctxCompLen ≤ lenTotal1 then ([idx], lenTotal1)
      else
        let res := greedyCtxLoop compSent ctxCompLen encLen lenTotal1 rest
        (idx :: res.1, res.2)

/-- The `ctx_indices` computed by `compress_contexts`: percentile mode when
`ctx_score_cumsum` is given, otherwise the greedy walk over
`np.argsort(ctx_scores)[::-1]`. -/
def ctxIndices (ctxScoreCumsum : Option ℚ) (compSent : Bool) (ctxCompLen : Int)
    (initLen : Int) (encLen : Nat → Int) (ctxScores : List ℚ) :
    Except Err (List Nat) :=
  match ctxScoreCumsum with
  | some t => percentileSelect t ctxScores
  | none =>
    Except.ok (greedyCtxLoop compSent ctxCompLen encLen initLen
      (argsortDesc ctxScores)).1

/-- Embeds the loop `for idx in ctx_indices: ctxs[idx]['ctx_score'] = ...`
(line 201-202): each selected passage is annotated with its score, all other
passages are unchanged. -/
def setCtxScores (idxs : List Nat) (scores : List ℚ) (ctxs : List Ctx) :
    List Ctx :=
  ctxs.enum.map (fun p =>
    if p.1 ∈ idxs then { p.2 with ctx_score := scores.getD p.1 0 } else p.2)

/-- Embeds `compress_contexts` (lines 157-215).  Returns
`(batch_scores_selected, batch_token_ids_selected, ctxs, ctx_indices)`.
With `do_sort_ctx` the selected indices keep score order, otherwise they are
restored to ascending original order by `sorted(...)`.  In percentile mode the
`ctx_score` annotations use the normalized scores (the source rebinds
`ctx_scores` before annotating). -/
def compress_contexts (doSortCtx : Bool) (ctxScoreMode questionMode : String)
    (includeEndToken compSent : Bool) (tok : Tok)
    (question patternStr : String) (ctxCompLen : Int)
    (ctxScoreCumsum : Option ℚ) (initLen : Int) (encLen : Nat → Int)
    (batchScores : List (List ℚ)) (batchTokenIds : List (List Int))
    (ctxs : List Ctx) :
    Except Err (List (List ℚ) × List (List Int) × List Ctx × List Nat) := do
  let titles := ctxs.map Ctx.title
  let ctxScoreVals ← get_ctx_scores ctxScoreMode questionMode includeEndToken
    tok question titles patternStr batchScores
  let ctxScores ← requireNumeric ctxScoreVals
  let ctxIdx ← ctxIndices ctxScoreCumsum compSent ctxCompLen initLen encLen
    ctxScores
  let annotScores := match ctxScoreCumsum with
    | some _ => ctxScores.map (fun x => x / ctxScores.sum)
    | none => ctxScores
  let ctxsScored := setCtxScores ctxIdx annotScores ctxs
  let sel := if doSortCtx then ctxIdx else natSort ctxIdx
  Except.ok (sel.map (fun i => batchScores.getD i []),
    sel.map (fun i => batchTokenIds.getD i []),
    sel.map (fun i => ctxsScored.getD i default),
    ctxIdx)

/-! ## compress_sentences (compress_utils.py lines 218-458)

The sentence stage is embedded piecewise: the content-slice extraction,
the per-sentence pooling of token ids, the sentence-dropping loop, the
`constraint_1_sent` adjustment, the budget reconciliation that follows each
passage, and the passage-level removal/text-update steps.  Reference-tokenizer
lengths (`len(GPT_TOKENIZER.encode(...))`) again enter as explicit length
arguments. -/

/-- Embeds lines 229-235: the last index whose token id is 1 is the passage's
end-of-sequence position (`np.where(token_ids == 1)[0][-1]`, an `IndexError`
when there is none), and the content arrays are the slices
`[ctx_start_idx : eos_token_idx]`. -/
def contentSlice (ctxStartIdx : Nat) (tokenIds : List Int) :
    Except Err (List Int) :=
  match (tokenIds.reverse.findIdx? (fun x => decide (x = 1))) with
  | none => Except.error Err.indexError
  | some k =>
    let eosIdx := tokenIds.length - 1 - k
    Except.ok ((tokenIds.take eosIdx).drop ctxStartIdx)

/-- Embeds the pooling loop of lines 276-288 for the token-id array of one
passage: `cum` carries the running cumulative re-tokenized sentence length
(the entries of `cum_len_list`), `startIdx` the slice start; a step is skipped
(`continue`) once `startIdx` has passed the length of the passage's content
score array (`scoresLen`), which equals the length of its content id array. -/
def poolIdsAux (scoresLen : Nat) (contextIds : List Int) :
    Nat → Nat → List Nat → List (List Int)
  | _, _, [] => []
  | startIdx, cum, n :: rest =>
    let c := cum + n
    if scoresLen ≤ startIdx then poolIdsAux scoresLen contextIds startIdx c rest
    else ((contextIds.take c).drop startIdx) ::
      poolIdsAux scoresLen contextIds c c rest

/-- The per-sentence token-id sub-arrays of one passage (`sent_token_ids_ctx`):
pooling starts at index 0 with cumulative length 0.  `sentLens` is
`sent_len_list`, the re-tokenized length of each sentence. -/
def poolTokenIdsPerSentence (scoresLen : Nat) (contextIds : List Int)
    (sentLens : List Nat) : List (List Int) :=
  poolIdsAux scoresLen contextIds 0 0 sentLens

/-- Embeds the sentence-dropping loop of lines 358-371 for one passage.
`lens` lists, in ascending-score (`argsort_sent`) order, the
reference-tokenizer length of each sentence together with its separator
(`len(GPT_TOKENIZER.encode(split_token + sent))`).  Returns the number of
dropped sentences (the loop's final `r + 1`) and the updated
`total_comp_len` and `cur_comp_len`.  On reaching the global target the last
sentence is restored when that leaves the total closer to the target. -/
def dropLoop (sentCompLen compLen : Int) :
    Int → Int → List Int → Nat × Int × Int
  | total, cur, [] => (0, total, cur)
  | total, cur, l :: rest =>
    let cur1 := cur + l
    let total1 := total + l
    if sentCompLen ≤ total1 then
      if |total1 - l - sentCompLen| < |total1 - sentCompLen| then
        (0, total, cur)
      else (1, total1, cur1)
    else if compLen ≤ cur1 then (1, total1, cur1)
    else
      let res := dropLoop sentCompLen compLen total1 cur1 rest
      (res.1 + 1, res.2.1, res.2.2)

/-- Embeds lines 372-383: after the loop, `r` counts the dropped sentences;
with `constraint_1_sent` a full drop (`r == len(argsort_sent)`) is pulled back
by one; the surviving sentence indices are `np.sort(argsort_sent[r:])`. -/
def selectedSentIndices (constraint1Sent : Bool) (sentCompLen compLen : Int)
    (total cur : Int) (argsortSent : List Nat) (lens : List Int) : List Nat :=
  let r0 := (dropLoop sentCompLen compLen total cur lens).1
  let r := if constraint1Sent = true ∧ r0 = argsortSent.length then r0 - 1
    else r0
  natSort (argsortSent.drop r)

/-- Embeds the excess loop of lines 409-418: walk the compression budgets from
the top rank (`r_i = 0`) forward, zeroing positive budgets against the excess
(`update = max(0, c - e)`, `e = max(0, e - c)`), stopping when the excess is
used up; entries at or beyond the current passage's rank are never touched
(the caller passes only the first `rank` entries). -/
def rollForwardExceed : Int → List Int → List Int
  | _, [] => []
  | e, c :: rest =>
    if e = 0 then c :: rest
    else if 0 < c then
      max 0 (c - e) :: rollForwardExceed (max 0 (e - c)) rest
    else c :: rollForwardExceed e rest

/-- Embeds the budget reconciliation of lines 405-423 applied to
`comp_len_per_ctx` after a passage of rank `rank` realized savings
`curCompLen` against its allotted budget `compLen`: excess savings reduce the
budgets of ranks `0, ..., rank-1` (the higher-ranked passages, which are
processed later); a shortfall is added to the budget at `rank - 1` (no-op for
rank 0). -/
def reconcileBudgets (rank : Nat) (compLen curCompLen : Int)
    (budgets : List Int) : List Int :=
  if compLen < curCompLen then
    rollForwardExceed (curCompLen - compLen) (budgets.take rank) ++
      budgets.drop rank
  else if rank = 0 then budgets
  else budgets.set (rank - 1) (budgets.getD (rank - 1) 0 + (compLen - curCompLen))

/-- Embeds the per-passage text rewrites of the sentence stage
(`ctxs[i]['text'] = sent_comp_text`, line 392): position `i` gets the new text
`updates i` when the stage rewrote it, and is untouched otherwise.  Only
`text` is written; `org_idx` is never modified. -/
def sentCompTexts (updates : Nat → Option String) (ctxs : List Ctx) :
    List Ctx :=
  ctxs.enum.map (fun p =>
    match updates p.1 with
    | some t => { p.2 with text := t }
    | none => p.2)

/-- Embeds line 425-426: passages whose position landed in
`ctx_removal_indices` are filtered out; the remaining passages keep their
relative order. -/
def removePassages (removalIdx : List Nat) (ctxs : List Ctx) : List Ctx :=
  (ctxs.enum.filter (fun p => decide (p.1 ∉ removalIdx))).map Prod.snd

/-! ## compress_tokens (compress_utils.py lines 461-491) -/

/-- Embeds `target_len = int(batch_scores.shape[0] * token_lamb)` (line 472):
Python `int()` truncates toward zero, which is the floor for the nonnegative
products that arise here. -/
def targetLen (totalLen : Nat) (tokenLamb : ℚ) : Nat :=
  (Rat.floor ((totalLen : ℚ) * tokenLamb)).toNat

/-- Embeds line 475: `np.sort(batch_scores.argsort()[::-1][:target_len])`,
the globally top-scoring positions, re-sorted ascending. -/
def sortedTargetIndices (scores : List ℚ) (tokenLamb : ℚ) : List Nat :=
  natSort ((argsortDesc scores).take (targetLen scores.length tokenLamb))

/-- Embeds line 481: `np.where(batch_token_ids[start:end] == 3)[0] + start`,
the positions in `[start, end)` holding the empty-span sentinel id 3. -/
def emptyTokenIndices (ids : List Int) (start endI : Nat) : List Nat :=
  (List.range ids.length).filter
    (fun k => decide (start ≤ k) && decide (k < endI) && decide (ids.getD k 0 = 3))

/-- Model of `np.union1d`: sorted union without duplicates. -/
def union1d (a b : List Nat) : List Nat :=
  (natSort (a ++ b)).dedup

/-- Embeds lines 480-482 for one passage slice `[start, end)`: the top-scoring
positions restricted to the slice, united with the sentinel positions, sorted
(`np.sort(np.union1d(...))`). -/
def passageTargetIndices (scores : List ℚ) (ids : List Int) (tokenLamb : ℚ)
    (start endI : Nat) : List Nat :=
  let sorted := sortedTargetIndices scores tokenLamb
  let curTarget := sorted.filter (fun k => decide (start ≤ k) && decide (k < endI))
  natSort (union1d curTarget (emptyTokenIndices ids start endI))

/-- Embeds line 483: the token ids at the selected positions. -/
def passageKeptIds (scores : List ℚ) (ids : List Int) (tokenLamb : ℚ)
    (start endI : Nat) : List Int :=
  (passageTargetIndices scores ids tokenLamb start endI).map
    (fun k => ids.getD k 0)

/-- Embeds line 484: the end-of-sequence sentinel id 2 is removed from the
kept ids before decoding. -/
def passageKeptIdsFiltered (scores : List ℚ) (ids : List Int) (tokenLamb : ℚ)
    (start endI : Nat) : List Int :=
  (passageKeptIds scores ids tokenLamb start endI).filter
    (fun x => decide (x ≠ 2))

/-- Embeds the passage-list effect of `compress_tokens` (lines 478-488): the
loop `for cum_len, ctx in zip(cum_len_list, ctxs)` writes a decoded text into
each zipped passage and leaves any unzipped tail untouched; the list itself is
returned in order.  The decoded texts enter as the parameter `texts`. -/
def compress_tokens_ctxs (texts : List String) (ctxs : List Ctx) : List Ctx :=
  (ctxs.zip texts).map (fun p => { p.1 with text := p.2 }) ++
    ctxs.drop texts.length

/-! ## General helpers -/

instance {ε α : Type} [DecidableEq ε] [DecidableEq α] :
    DecidableEq (Except ε α) := fun x y =>
  match x, y with
  | Except.ok a, Except.ok b =>
    if h : a = b then isTrue (by rw [h]) else isFalse (by simp [h])
  | Except.error e, Except.error f =>
    if h : e = f then isTrue (by rw [h]) else isFalse (by simp [h])
  | Except.ok _, Except.error _ => isFalse (by simp)
  | Except.error _, Except.ok _ => isFalse (by simp)

/-- A concrete trivial scoring tokenizer, used to instantiate theorems at
closed inputs. -/
def trivTok : Tok :=
  ⟨fun _ => [], fun l => l.map (fun _ => [])⟩

theorem exceptBind_ok {α β : Type} {x : Except Err α} {f : α → Except Err β}
    {b : β} (h : (x >>= f) = Except.ok b) :
    ∃ a, x = Except.ok a ∧ f a = Except.ok b := by
  cases x with
  | error e => simp [Bind.bind, Except.bind] at h
  | ok a => exact ⟨a, rfl, by simpa [Bind.bind, Except.bind] using h⟩

theorem exceptBind_error {α β : Type} {x : Except Err α} {f : α → Except Err β}
    {e : Err} (h : (x >>= f) = Except.error e) :
    x = Except.error e ∨ ∃ a, x = Except.ok a ∧ f a = Except.error e := by
  cases x with
  | error e0 =>
    left
    simp only [Bind.bind, Except.bind] at h
    cases h
    rfl
  | ok a => exact Or.inr ⟨a, rfl, by simpa [Bind.bind, Except.bind] using h⟩

theorem mapE_ok_length {α β : Type} {f : α → Except Err β} :
    ∀ {l : List α} {res : List β}, mapE f l = Except.ok res →
      res.length = l.length := by
  intro l
  induction l with
  | nil =>
    intro res h
    simp only [mapE] at h
    cases h
    rfl
  | cons a t ih =>
    intro res h
    simp only [mapE] at h
    obtain ⟨b, hb, h2⟩ := exceptBind_ok h
    obtain ⟨r, hr, h3⟩ := exceptBind_ok h2
    cases h3
    simp [ih hr]

theorem mapE_error_mem {α β : Type} {f : α → Except Err β} :
    ∀ {l : List α} {e : Err}, mapE f l = Except.error e →
      ∃ x ∈ l, f x = Except.error e := by
  intro l
  induction l with
  | nil => intro e h; simp [mapE] at h
  | cons a t ih =>
    intro e h
    simp only [mapE] at h
    rcases exceptBind_error h with h1 | ⟨b, hb, h2⟩
    · exact ⟨a, List.mem_cons_self a t, h1⟩
    · rcases exceptBind_error h2 with h3 | ⟨r, hr, h4⟩
      · obtain ⟨x, hx, hfx⟩ := ih h3
        exact ⟨x, List.mem_cons_of_mem a hx, hfx⟩
      · simp [Pure.pure, Except.pure] at h4

theorem mapE_ok_of_forall {α β : Type} {f : α → Except Err β} :
    ∀ {l : List α}, (∀ x ∈ l, ∃ y, f x = Except.ok y) →
      ∃ res, mapE f l = Except.ok res ∧ res.length = l.length := by
  intro l
  induction l with
  | nil => intro _; exact ⟨[], rfl, rfl⟩
  | cons a t ih =>
    intro h
    obtain ⟨b, hb⟩ := h a (List.mem_cons_self a t)
    obtain ⟨r, hr, hlen⟩ := ih (fun x hx => h x (List.mem_cons_of_mem a hx))
    refine ⟨b :: r, ?_, by simp [hlen]⟩
    simp only [mapE, hb, hr]
    rfl

/-! ## Claim C10 -/

/-- C10: the per-passage aggregate of `get_ctx_scores` is computed over the
strictly nonzero score entries only, with the zero entries removed before the
`include_end_token` truncation and the aggregation: inserting a zero score
entry anywhere in a passage's score array leaves the aggregate (and any error
it raises) unchanged, for every aggregation mode and both truncation flags. -/
theorem c10_nonzero_filter (mode : String) (includeEndToken : Bool)
    (s t : List ℚ) :
    aggregate mode includeEndToken (s ++ 0 :: t) =
      aggregate mode includeEndToken (s ++ t) := by
  have h : (s ++ 0 :: t).filter (fun x => decide (x ≠ 0)) =
      (s ++ t).filter (fun x => decide (x ≠ 0)) := by
    simp [List.filter_append]
  simp only [aggregate, h]

/-! ## Claim C1 -/

/-- C1 counterexample: in percentile mode with scores `[0.1, 0.5, 0.4]` and
`ctx_score_cumsum = 0.5`, `compress_contexts` retains exactly one passage, not
the two passages the claim states: the slice `[:cum_ctx_index]` excludes the
first descending-sorted index whose cumulative normalized score strictly
exceeds the threshold. -/
theorem c1_percentile_counterexample :
    (percentileSelect (1/2) [1/10, 1/2, 2/5]).map List.length = Except.ok 1 ∧
      (1 : Nat) ≠ 2 :=
  ⟨by decide, by decide⟩

/-- C1 amended: for scores `[0.1, 0.5, 0.4]` and threshold `0.5`, percentile
selection retains exactly the single passage of original score `0.5` (index
1): the strict prefix of the descending-sorted passages before the first index
whose cumulative normalized score strictly exceeds the threshold, with a
minimum of one passage. -/
theorem c1_percentile_amended :
    percentileSelect (1/2) [1/10, 1/2, 2/5] = Except.ok [1] ∧
      ([1/10, 1/2, 2/5] : List ℚ).getD 1 0 = 1/2 :=
  ⟨by decide, by decide⟩

/-! ## Claim C8 -/

/-- C8 counterexample: on an empty candidate list, `compress_contexts` in
greedy mode with `question_mode = 'include'` does not fail with any error (in
particular not with a `NoDocumentsFound` error, which the source does not
define): it completes and returns empty selections. -/
theorem c8_empty_ctxs_counterexample :
    compress_contexts false "mean" "include" true false trivTok "q"
      "question:" 100 none 0 (fun _ => 0) [] [] [] =
      Except.ok ([], [], [], []) := by decide

/-- C8 amended: `compress_contexts` raises no `NoDocumentsFound` error on an
empty candidate list; in greedy mode with `question_mode = 'include'` it
returns successfully with empty outputs, while percentile mode fails with an
`IndexError` (from `np.where(...)[0][0]` on an empty array) instead. -/
theorem c8_empty_ctxs_amended :
    compress_contexts false "mean" "include" true false trivTok "q"
        "question:" 100 none 0 (fun _ => 0) [] [] [] =
        Except.ok ([], [], [], []) ∧
      compress_contexts false "mean" "include" true false trivTok "q"
        "question:" 100 (some (1/2)) 0 (fun _ => 0) [] [] [] =
        Except.error Err.indexError :=
  ⟨by decide, by decide⟩

/-! ## Claim C7 -/

/-- Splitting a contiguous slice of a list at an intermediate point. -/
theorem segment_append (l : List α) (a b c : Nat) (hab : a ≤ b)
    (hbc : b ≤ c) :
    (l.take b).drop a ++ (l.take c).drop b = (l.take c).drop a := by
  rw [List.drop_take, List.drop_take, List.drop_take]
  have hb : l.drop b = (l.drop a).drop (b - a) := by
    rw [List.drop_drop]
    congr 1
    omega
  rw [hb, ← List.take_add]
  congr 1
  omega

theorem poolIdsAux_length_le (scoresLen : Nat) (ids : List Int) :
    ∀ (lens : List Nat) (s c : Nat),
      (poolIdsAux scoresLen ids s c lens).length ≤ lens.length := by
  intro lens
  induction lens with
  | nil => intro s c; simp [poolIdsAux]
  | cons n rest ih =>
    intro s c
    simp only [poolIdsAux]
    by_cases hg : scoresLen ≤ s
    · rw [if_pos hg]
      exact le_trans (ih s (c + n)) (Nat.le_succ _)
    · rw [if_neg hg]
      simpa using ih (c + n) (c + n)

theorem poolIdsAux_flatten (ids : List Int) :
    ∀ (lens : List Nat) (c : Nat),
      (poolIdsAux ids.length ids c c lens).length = lens.length →
      (poolIdsAux ids.length ids c c lens).flatten =
        (ids.take (c + lens.sum)).drop c := by
  intro lens
  induction lens with
  | nil =>
    intro c _
    simp only [poolIdsAux, List.flatten_nil]
    rw [List.drop_take]
    simp
  | cons n rest ih =>
    intro c h
    by_cases hg : ids.length ≤ c
    · exfalso
      simp only [poolIdsAux, if_pos hg] at h
      have hle := poolIdsAux_length_le ids.length ids rest c (c + n)
      rw [h] at hle
      simp at hle
    · simp only [poolIdsAux, if_neg hg] at h ⊢
      simp only [List.length_cons, Nat.succ_inj] at h
      rw [List.flatten_cons, ih (c + n) h,
        segment_append ids c (c + n) (c + n + rest.sum) (by omega) (by omega)]
      have hs : c + (n :: rest).sum = c + n + rest.sum := by
        simp only [List.sum_cons]
        omega
      rw [hs]

/-- C7 counterexample: a passage whose single sentence re-tokenizes to one
token while its content token-id array has two entries: the pooled slot count
equals the sentence count, yet the concatenation of the pooled sub-arrays is a
strict prefix of the content array, not the whole of it. -/
theorem c7_pool_counterexample :
    (poolTokenIdsPerSentence 2 [10, 11] [1]).length = ([1] : List Nat).length ∧
      (poolTokenIdsPerSentence 2 [10, 11] [1]).flatten ≠ [10, 11] :=
  ⟨by decide, by decide⟩

/-- C7 amended: for a passage whose sentence count equals the number of pooled
sub-arrays, the concatenation of the per-sentence token-id sub-arrays equals
the passage's content token-id array provided the total re-tokenized sentence
length is at least the content array's length (the pooled slices cover only
the first `sum sentLens` content tokens, so a re-tokenization that comes up
short leaves a strict prefix). -/
theorem c7_pool_amended (ids : List Int) (sentLens : List Nat)
    (hcount : (poolTokenIdsPerSentence ids.length ids sentLens).length =
      sentLens.length)
    (htotal : ids.length ≤ sentLens.sum) :
    (poolTokenIdsPerSentence ids.length ids sentLens).flatten = ids := by
  have h := poolIdsAux_flatten ids sentLens 0 hcount
  simp only [poolTokenIdsPerSentence] at h ⊢
  rw [h]
  simp [List.take_of_length_le htotal]

/-- Witness for C7 amended at a concrete passage: two content tokens, two
sentences of one re-tokenized token each. -/
theorem c7_pool_amended_witness :
    (poolTokenIdsPerSentence 2 [10, 11] [1, 1]).flatten = [10, 11] :=
  c7_pool_amended [10, 11] [1, 1] (by decide) (by decide)

/-! ## Claim C3 -/

theorem rollForwardExceed_length (e : Int) (l : List Int) :
    (rollForwardExceed e l).length = l.length := by
  induction l generalizing e with
  | nil => rfl
  | cons c rest ih =>
    simp only [rollForwardExceed]
    by_cases h0 : e = 0
    · simp [h0]
    · by_cases hc : 0 < c
      · simp [h0, hc, ih]
      · simp [h0, hc, ih]

theorem rollForwardExceed_sum (e : Int) (l : List Int) (he : 0 ≤ e)
    (hl : ∀ b ∈ l, 0 ≤ b) :
    (rollForwardExceed e l).sum = l.sum - min e l.sum := by
  induction l generalizing e with
  | nil =>
    simp only [rollForwardExceed, List.sum_nil]
    omega
  | cons c rest ih =>
    have hc : 0 ≤ c := hl c (List.mem_cons_self c rest)
    have hrest : ∀ b ∈ rest, 0 ≤ b :=
      fun b hb => hl b (List.mem_cons_of_mem c hb)
    have hsum : 0 ≤ rest.sum := List.sum_nonneg hrest
    simp only [rollForwardExceed]
    by_cases h0 : e = 0
    · rw [if_pos h0]
      subst h0
      simp only [List.sum_cons]
      omega
    · rw [if_neg h0]
      by_cases hcpos : 0 < c
      · rw [if_pos hcpos]
        have hrec := ih (max 0 (e - c)) (le_max_left 0 (e - c)) hrest
        simp only [List.sum_cons, hrec]
        omega
      · rw [if_neg hcpos]
        have hrec := ih e he hrest
        simp only [List.sum_cons, hrec]
        omega

/-- C3: after a passage of rank `rank` is processed, the difference between
its allotted compression budget `compLen` and its realized savings
`curCompLen` is reconciled on `comp_len_per_ctx`: excess savings reduce the
total budget still allotted to the not-yet-processed higher ranks
`0, ..., rank-1` by exactly the excess (capped at what those ranks still
hold), leaving ranks from `rank` on untouched, while a shortfall is added to
the budget of rank `rank - 1`, i.e. it reduces that passage's remaining keep
allowance by the shortfall. -/
theorem c3_reconcile_budget (rank : Nat) (compLen curCompLen : Int)
    (budgets : List Int) (hnn : ∀ b ∈ budgets, 0 ≤ b)
    (hrank : rank ≤ budgets.length) :
    (compLen < curCompLen →
      (reconcileBudgets rank compLen curCompLen budgets).drop rank =
        budgets.drop rank ∧
      ((reconcileBudgets rank compLen curCompLen budgets).take rank).sum =
        (budgets.take rank).sum -
          min (curCompLen - compLen) (budgets.take rank).sum) ∧
    (curCompLen ≤ compLen → rank ≠ 0 →
      reconcileBudgets rank compLen curCompLen budgets =
        budgets.set (rank - 1)
          (budgets.getD (rank - 1) 0 + (compLen - curCompLen))) := by
  constructor
  · intro hx
    have hlen : (rollForwardExceed (curCompLen - compLen)
        (budgets.take rank)).length = rank := by
      rw [rollForwardExceed_length, List.length_take]
      omega
    have htk : ∀ b ∈ budgets.take rank, 0 ≤ b :=
      fun b hb => hnn b ((List.take_sublist rank budgets).subset hb)
    constructor
    · simp only [reconcileBudgets, if_pos hx]
      have hd := List.drop_left
        (rollForwardExceed (curCompLen - compLen) (budgets.take rank))
        (budgets.drop rank)
      rw [hlen] at hd
      exact hd
    · simp only [reconcileBudgets, if_pos hx]
      have ht := List.take_left
        (rollForwardExceed (curCompLen - compLen) (budgets.take rank))
        (budgets.drop rank)
      rw [hlen] at ht
      rw [ht]
      exact rollForwardExceed_sum _ _ (by omega) htk
  · intro hs hr
    simp only [reconcileBudgets, if_neg (not_lt.mpr hs), if_neg hr]

/-- Witness for C3 at a concrete reconciliation: rank 2, budget 4, realized
savings 10 (an excess of 6 against a forward budget of 5), budgets
`[2, 3, 0, 5]`. -/
theorem c3_reconcile_budget_witness :
    (reconcileBudgets 2 4 10 [2, 3, 0, 5]).drop 2 = ([2, 3, 0, 5] : List Int).drop 2 ∧
      ((reconcileBudgets 2 4 10 [2, 3, 0, 5]).take 2).sum =
        (([2, 3, 0, 5] : List Int).take 2).sum -
          min (10 - 4) (([2, 3, 0, 5] : List Int).take 2).sum :=
  (c3_reconcile_budget 2 4 10 [2, 3, 0, 5] (by decide) (by decide)).1
    (by decide)

/-! ## Claim C5 -/

/-- C5: in token selection, every position of the passage slice `[start, end)`
holding the empty-span sentinel id 3 is in the passage's selected index set
regardless of its score; the restriction of the globally top-scoring index set
(of size `floor(total * token_lamb)`) to the slice is also selected; and the
end-of-sequence sentinel id 2 never survives the final filter applied before
decoding. -/
theorem c5_token_sentinel (scores : List ℚ) (ids : List Int) (tokenLamb : ℚ)
    (start endI : Nat) :
    (∀ k, start ≤ k → k < endI → k < ids.length → ids.getD k 0 = 3 →
      k ∈ passageTargetIndices scores ids tokenLamb start endI) ∧
    (∀ j, j ∈ sortedTargetIndices scores tokenLamb → start ≤ j → j < endI →
      j ∈ passageTargetIndices scores ids tokenLamb start endI) ∧
    (2 : Int) ∉ passageKeptIdsFiltered scores ids tokenLamb start endI := by
  refine ⟨?_, ?_, ?_⟩
  · intro k h1 h2 h3 h4
    have hk : k ∈ emptyTokenIndices ids start endI := by
      simp only [emptyTokenIndices, List.mem_filter, List.mem_range]
      refine ⟨h3, ?_⟩
      simp only [Bool.and_eq_true, decide_eq_true_eq]
      exact ⟨⟨h1, h2⟩, h4⟩
    simp only [passageTargetIndices, natSort, List.mem_insertionSort, union1d,
      List.mem_dedup, List.mem_append]
    exact Or.inr hk
  · intro j hj h1 h2
    simp only [passageTargetIndices, natSort, List.mem_insertionSort, union1d,
      List.mem_dedup, List.mem_append]
    left
    simp only [List.mem_filter]
    refine ⟨hj, ?_⟩
    simp only [Bool.and_eq_true, decide_eq_true_eq]
    exact ⟨h1, h2⟩
  · intro hmem
    simp only [passageKeptIdsFiltered, List.mem_filter] at hmem
    simp at hmem

/-- Witness for C5: two tokens with ids `[3, 2]`, `token_lamb = 1/2` (one
top-scoring position), slice `[0, 2)`: position 0 carries the empty-span
sentinel id 3 and is selected. -/
theorem c5_token_sentinel_witness :
    (0 : Nat) ∈ passageTargetIndices [1, 2] [3, 2] (1/2) 0 2 :=
  (c5_token_sentinel [1, 2] [3, 2] (1/2) 0 2).1 0 (by decide) (by decide)
    (by decide) (by decide)

/-! ## Claim C2 -/

theorem greedyCtxLoop_total (compSent : Bool) (ctxCompLen : Int)
    (encLen : Nat → Int) :
    ∀ (idxs : List Nat) (initLen : Int),
      (greedyCtxLoop compSent ctxCompLen encLen initLen idxs).2 =
        initLen +
          (((greedyCtxLoop compSent ctxCompLen encLen initLen idxs).1).map
            encLen).sum := by
  intro idxs
  induction idxs with
  | nil => intro init; simp [greedyCtxLoop]
  | cons i rest ih =>
    intro init
    simp only [greedyCtxLoop]
    by_cases hbr : compSent = false ∧
        |init - ctxCompLen| < |init + encLen i - ctxCompLen|
    · simp [if_pos hbr]
    · rw [if_neg hbr]
      by_cases hst : ctxCompLen ≤ init + encLen i
      · simp [if_pos hst]
      · rw [if_neg hst]
        simp only [List.map_cons, List.sum_cons]
        rw [ih (init + encLen i)]
        ring

/-- C2: in greedy mode with sentence compression disabled, the final running
length returned by the context-selection walk is never farther from
`ctx_comp_len` than the total one passage earlier: whenever the selected list
ends in `lastIdx`, the distance of the final total to the target is at most
the distance of the final total minus that passage's rendered length. -/
theorem c2_greedy_budget_monotone (ctxCompLen : Int) (encLen : Nat → Int) :
    ∀ (idxs : List Nat) (initLen : Int) (pre : List Nat) (lastIdx : Nat),
      (greedyCtxLoop false ctxCompLen encLen initLen idxs).1 =
        pre ++ [lastIdx] →
      |(greedyCtxLoop false ctxCompLen encLen initLen idxs).2 - ctxCompLen| ≤
        |(greedyCtxLoop false ctxCompLen encLen initLen idxs).2 -
          encLen lastIdx - ctxCompLen| := by
  intro idxs
  induction idxs with
  | nil =>
    intro init pre lastIdx h
    simp [greedyCtxLoop] at h
  | cons i rest ih =>
    intro init pre lastIdx h
    simp only [greedyCtxLoop] at h ⊢
    by_cases hlt : |init - ctxCompLen| < |init + encLen i - ctxCompLen|
    · rw [if_pos (And.intro trivial hlt)] at h
      simp at h
    · have hcond : ¬ (True ∧
          |init - ctxCompLen| < |init + encLen i - ctxCompLen|) := by
        simp [hlt]
      rw [if_neg hcond] at h ⊢
      by_cases hst : ctxCompLen ≤ init + encLen i
      · rw [if_pos hst] at h ⊢
        have h1 : [i] = pre ++ [lastIdx] := h
        cases pre with
        | nil =>
          have h2 : [i] = [lastIdx] := by simpa using h1
          rw [List.cons.injEq] at h2
          have hrw : init + encLen i - encLen lastIdx - ctxCompLen =
              init - ctxCompLen := by rw [← h2.1]; ring
          show |init + encLen i - ctxCompLen| ≤
            |init + encLen i - encLen lastIdx - ctxCompLen|
          rw [hrw]
          exact not_lt.mp hlt
        | cons p ps =>
          exfalso
          have hl := congrArg List.length h1
          simp at hl
      · rw [if_neg hst] at h ⊢
        have h1 : i :: (greedyCtxLoop false ctxCompLen encLen
            (init + encLen i) rest).1 = pre ++ [lastIdx] := h
        cases pre with
        | nil =>
          have h2 : i :: (greedyCtxLoop false ctxCompLen encLen
              (init + encLen i) rest).1 = [lastIdx] := by simpa using h1
          rw [List.cons.injEq] at h2
          have htot := greedyCtxLoop_total false ctxCompLen encLen rest
            (init + encLen i)
          rw [h2.2] at htot
          simp only [List.map_nil, List.sum_nil, add_zero] at htot
          show |(greedyCtxLoop false ctxCompLen encLen (init + encLen i)
              rest).2 - ctxCompLen| ≤
            |(greedyCtxLoop false ctxCompLen encLen (init + encLen i)
              rest).2 - encLen lastIdx - ctxCompLen|
          rw [htot]
          have hrw : init + encLen i - encLen lastIdx - ctxCompLen =
              init - ctxCompLen := by rw [← h2.1]; ring
          rw [hrw]
          exact not_lt.mp hlt
        | cons p ps =>
          rw [List.cons_append, List.cons.injEq] at h1
          exact ih (init + encLen i) ps lastIdx h1.2

/-- Witness for C2: target 7, every passage of rendered length 5, initial
length 0: the walk selects one passage (total 5) and stops, and 5 is no
farther from 7 than 0 is. -/
theorem c2_greedy_budget_monotone_witness :
    |(greedyCtxLoop false 7 (fun _ => 5) 0 [0, 1]).2 - 7| ≤
      |(greedyCtxLoop false 7 (fun _ => 5) 0 [0, 1]).2 - 5 - 7| :=
  c2_greedy_budget_monotone 7 (fun _ => 5) [0, 1] 0 [] 0 (by decide)

/-! ## Claim C4 -/

theorem dropLoop_le_length (sentCompLen compLen : Int) :
    ∀ (lens : List Int) (total cur : Int),
      (dropLoop sentCompLen compLen total cur lens).1 ≤ lens.length := by
  intro lens
  induction lens with
  | nil => intro total cur; simp [dropLoop]
  | cons l rest ih =>
    intro total cur
    simp only [dropLoop]
    by_cases h1 : sentCompLen ≤ total + l
    · rw [if_pos h1]
      by_cases h2 : |total + l - l - sentCompLen| < |total + l - sentCompLen|
      · rw [if_pos h2]; simp
      · rw [if_neg h2]; simp
    · rw [if_neg h1]
      by_cases h3 : compLen ≤ cur + l
      · rw [if_pos h3]; simp
      · rw [if_neg h3]
        simpa using ih (total + l) (cur + l)

theorem drop_length_sub_one_getLast :
    ∀ (l : List Nat), l ≠ [] →
      ∃ m, l.getLast? = some m ∧ l.drop (l.length - 1) = [m] := by
  intro l
  induction l with
  | nil => intro h; exact absurd rfl h
  | cons a t ih =>
    intro _
    cases t with
    | nil => exact ⟨a, rfl, rfl⟩
    | cons b s =>
      obtain ⟨m, hm1, hm2⟩ := ih (by simp)
      refine ⟨m, ?_, ?_⟩
      · rw [List.getLast?_cons_cons]
        exact hm1
      · have hlen : (a :: b :: s).length - 1 = (b :: s).length := by
          simp
        rw [hlen]
        show List.drop ((b :: s).length - 1 + 1) (a :: b :: s) = [m]
        rw [List.drop_succ_cons]
        exact hm2

theorem sorted_getLast?_le (s : List ℚ) :
    ∀ (l : List Nat) (m : Nat), List.Sorted (scoreLE s) l →
      l.getLast? = some m → ∀ j ∈ l, scoreLE s j m := by
  intro l
  induction l with
  | nil => intro m _ hm; cases hm
  | cons a t ih =>
    intro m hsort hm j hj
    cases t with
    | nil =>
      have hma : m = a := by
        simp only [List.getLast?_singleton] at hm
        cases hm
        rfl
      have hja : j = a := by simpa using hj
      rw [hma, hja]
      exact le_refl _
    | cons b s2 =>
      rw [List.getLast?_cons_cons] at hm
      have hsort2 : List.Sorted (scoreLE s) (b :: s2) := hsort.of_cons
      have hmem : m ∈ b :: s2 := List.mem_of_getLast?_eq_some hm
      rcases List.mem_cons.mp hj with hja | hjt
      · rw [hja]
        exact List.rel_of_sorted_cons hsort m hmem
      · exact ih m hsort2 hm j hjt

theorem natSort_singleton (a : Nat) : natSort [a] = [a] := rfl

theorem natSort_ne_nil {l : List Nat} (h : l ≠ []) : natSort l ≠ [] := by
  intro hc
  apply h
  have hp := List.perm_insertionSort (· ≤ ·) l
  rw [natSort] at hc
  rw [hc] at hp
  exact hp.symm.eq_nil

/-- C4: with `constraint_1_sent` set, the sentence-dropping loop never leaves
a passage empty: the selected sentence index list is nonempty whatever the
budgets, and when the loop would have dropped every sentence the selection is
exactly the final (highest mean score) entry of the ascending argsort, whose
score bounds every sentence's score; consequently the all-dropped removal
branch (`r == len(argsort_sent)`) is not taken. -/
theorem c4_constraint_1_sent (sentCompLen compLen total cur : Int)
    (sentScores : List ℚ) (lens : List Int)
    (hs : sentScores ≠ [])
    (hl : lens.length = (argsortAsc sentScores).length) :
    selectedSentIndices true sentCompLen compLen total cur
        (argsortAsc sentScores) lens ≠ [] ∧
    (¬ (if true = true ∧ (dropLoop sentCompLen compLen total cur lens).1 =
          (argsortAsc sentScores).length then
        (dropLoop sentCompLen compLen total cur lens).1 - 1
      else (dropLoop sentCompLen compLen total cur lens).1) =
        (argsortAsc sentScores).length) ∧
    ((dropLoop sentCompLen compLen total cur lens).1 =
        (argsortAsc sentScores).length →
      ∃ m, (argsortAsc sentScores).getLast? = some m ∧
        selectedSentIndices true sentCompLen compLen total cur
          (argsortAsc sentScores) lens = [m] ∧
        ∀ j ∈ argsortAsc sentScores,
          sentScores.getD j 0 ≤ sentScores.getD m 0) := by
  have hAlen : (argsortAsc sentScores).length = sentScores.length := by
    show (List.insertionSort (scoreLE sentScores)
      (List.range sentScores.length)).length = sentScores.length
    rw [(List.perm_insertionSort (scoreLE sentScores)
      (List.range sentScores.length)).length_eq]
    exact List.length_range sentScores.length
  have hApos : 0 < (argsortAsc sentScores).length := by
    rw [hAlen]
    exact List.length_pos.mpr hs
  have hr0 : (dropLoop sentCompLen compLen total cur lens).1 ≤
      (argsortAsc sentScores).length := by
    rw [← hl]
    exact dropLoop_le_length sentCompLen compLen lens total cur
  by_cases hfull : (dropLoop sentCompLen compLen total cur lens).1 =
      (argsortAsc sentScores).length
  · obtain ⟨m, hm1, hm2⟩ := drop_length_sub_one_getLast (argsortAsc sentScores)
      (by intro hc; rw [hc] at hApos; simp at hApos)
    have hsel : selectedSentIndices true sentCompLen compLen total cur
        (argsortAsc sentScores) lens = [m] := by
      simp only [selectedSentIndices]
      rw [if_pos (⟨by trivial, hfull⟩ : _ ∧ _), hfull, hm2]
      exact natSort_singleton m
    refine ⟨by rw [hsel]; simp, ?_, ?_⟩
    · rw [if_pos (And.intro rfl hfull), hfull]
      omega
    · intro _
      refine ⟨m, hm1, hsel, ?_⟩
      intro j hj
      exact sorted_getLast?_le sentScores (argsortAsc sentScores) m
        (List.sorted_insertionSort (scoreLE sentScores) _) hm1 j hj
  · have hlt : (dropLoop sentCompLen compLen total cur lens).1 <
        (argsortAsc sentScores).length := lt_of_le_of_ne hr0 hfull
    have hne : (argsortAsc sentScores).drop
        (dropLoop sentCompLen compLen total cur lens).1 ≠ [] := by
      intro hc
      rw [List.drop_eq_nil_iff] at hc
      omega
    refine ⟨?_, ?_, fun hc => absurd hc hfull⟩
    · simp only [selectedSentIndices]
      rw [if_neg (fun hand => hfull (And.right hand))]
      exact natSort_ne_nil hne
    · rw [if_neg (fun hand => hfull (And.right hand))]
      exact hfull

/-- Witness for C4: two sentences with scores `[1/2, 1/3]`, both of rendered
length 5, budgets that let the loop drop everything (`sent_comp_len =
comp_len = 100` never reached within two sentences while the per-context
budget is not exceeded... the loop runs to completion and drops all), yet the
selection is nonempty. -/
theorem c4_constraint_1_sent_witness :
    selectedSentIndices true 100 100 0 0 (argsortAsc [1/2, 1/3]) [5, 5] ≠ [] :=
  (c4_constraint_1_sent 100 100 0 0 [1/2, 1/3] [5, 5] (by decide)
    (by decide)).1

/-! ## Claim C9 -/

/-- The error class the specification calls `InvalidConfiguration`: the two
`ValueError(f"Invalid ...")` sites of `get_ctx_scores`. -/
def isInvalidConfig (e : Err) : Prop :=
  (∃ s, e = Err.invalidMode s) ∨ (∃ s, e = Err.invalidQuestionMode s)

theorem aggregate_invalid_mode (mode : String) (h1 : mode ≠ "mean")
    (h2 : mode ≠ "max") (h3 : mode ≠ "sum") (incl : Bool) (s : List ℚ) :
    aggregate mode incl s = Except.error (Err.invalidMode mode) := by
  simp [aggregate, h1, h2, h3]

theorem aggregate_ok_mean_sum (mode : String)
    (hv : mode = "mean" ∨ mode = "sum") (incl : Bool) (s : List ℚ) :
    ∃ y, aggregate mode incl s = Except.ok y := by
  rcases hv with rfl | rfl
  · exact ⟨_, rfl⟩
  · exact ⟨_, rfl⟩

theorem aggregate_valid_error (mode : String)
    (hv : mode = "mean" ∨ mode = "max" ∨ mode = "sum") (incl : Bool)
    (s : List ℚ) (e : Err) (h : aggregate mode incl s = Except.error e) :
    e = Err.emptyReduction := by
  rcases hv with rfl | rfl | rfl
  · obtain ⟨y, hy⟩ := aggregate_ok_mean_sum "mean" (Or.inl rfl) incl s
    rw [hy] at h
    simp at h
  · have hres : aggregate "max" incl s =
        (match (if incl then s.filter (fun x => decide (x ≠ 0))
            else (s.filter (fun x => decide (x ≠ 0))).dropLast).max? with
          | none => Except.error Err.emptyReduction
          | some m => Except.ok (some m)) := rfl
    rw [hres] at h
    cases hmx : (if incl then s.filter (fun x => decide (x ≠ 0))
        else (s.filter (fun x => decide (x ≠ 0))).dropLast).max? with
    | none =>
      rw [hmx] at h
      have h2 : Except.error Err.emptyReduction = Except.error e := h
      simp only [Except.error.injEq] at h2
      exact h2.symm
    | some m =>
      rw [hmx] at h
      have h2 : Except.ok (some m) = Except.error e := h
      simp at h2
  · obtain ⟨y, hy⟩ := aggregate_ok_mean_sum "sum" (Or.inr rfl) incl s
    rw [hy] at h
    simp at h

theorem gcsi_error (tok : Tok) (q : String) (titles : List (Option String))
    (pat : String) (e : Err)
    (h : get_ctx_start_indices tok q titles pat = Except.error e) :
    e = Err.indexError ∨ e = Err.assertionError := by
  cases titles with
  | nil =>
    simp only [get_ctx_start_indices, Except.error.injEq] at h
    exact Or.inl h.symm
  | cons t0 ts =>
    cases t0 with
    | some t =>
      have h2 : (if ((some t :: ts).all (fun x => x.isSome)) = true then
          Except.ok ((tok.batchEncode ((some t :: ts).map (fun x =>
            match x with
            | some ti => "question: " ++ q ++ " title: " ++ ti
            | none => ""))).map
            (fun ids => ids.length + (tok.encode pat).length))
        else Except.error Err.assertionError) = Except.error e := h
      by_cases hall : ((some t :: ts).all (fun x => x.isSome)) = true
      · rw [if_pos hall] at h2
        simp at h2
      · rw [if_neg hall] at h2
        simp only [Except.error.injEq] at h2
        exact Or.inr h2.symm
    | none =>
      have h2 : (if ((none :: ts).all (fun x => x.isNone)) = true then
          Except.ok ((none :: ts).map (fun _ =>
            ((tok.encode ("question: " ++ q)).drop
              ((tok.encode ("question: " ++ q)).length - 252)).length +
            (tok.encode pat).length))
        else Except.error Err.assertionError) = Except.error e := h
      by_cases hall : ((none :: ts).all (fun x => x.isNone)) = true
      · rw [if_pos hall] at h2
        simp at h2
      · rw [if_neg hall] at h2
        simp only [Except.error.injEq] at h2
        exact Or.inr h2.symm

/-- C9 counterexample: with an invalid aggregation mode but an empty passage
batch, `get_ctx_scores` raises no error at all — the `raise ValueError` for
the mode sits inside the per-passage loop, which never runs.  This falsifies
the claimed "if and only if". -/
theorem c9_invalid_config_counterexample :
    get_ctx_scores "bogus" "include" true trivTok "q" [] "p" [] =
      Except.ok [] := rfl

/-- C9 amended: `get_ctx_scores` raises `InvalidConfiguration` (an invalid-
mode or invalid-question-mode `ValueError`) exactly in these cases: an
invalid `question_mode` always raises; an invalid aggregation mode raises
only when at least one passage reaches aggregation (here: `question_mode =
'include'` and a nonempty batch); under valid modes no invalid-configuration
error can occur; and with `question_mode = 'include'` and `mean`/`sum`
aggregation it returns one aggregate per passage without any error (for
`max`, NumPy's reduction over a passage whose nonzero slice is empty can
still raise a different, zero-size-reduction error). -/
theorem c9_invalid_config_amended (mode questionMode : String)
    (includeEndToken : Bool) (tok : Tok) (question : String)
    (titles : List (Option String)) (patternStr : String)
    (batchScores : List (List ℚ)) :
    (questionMode ≠ "include" → questionMode ≠ "exclude" →
      get_ctx_scores mode questionMode includeEndToken tok question titles
          patternStr batchScores =
        Except.error (Err.invalidQuestionMode questionMode)) ∧
    (mode ≠ "mean" → mode ≠ "max" → mode ≠ "sum" →
      questionMode = "include" → batchScores ≠ [] →
      get_ctx_scores mode questionMode includeEndToken tok question titles
          patternStr batchScores = Except.error (Err.invalidMode mode)) ∧
    ((mode = "mean" ∨ mode = "max" ∨ mode = "sum") →
      (questionMode = "include" ∨ questionMode = "exclude") →
      ∀ e, get_ctx_scores mode questionMode includeEndToken tok question
          titles patternStr batchScores = Except.error e →
        ¬ isInvalidConfig e) ∧
    ((mode = "mean" ∨ mode = "sum") → questionMode = "include" →
      ∃ res, get_ctx_scores mode questionMode includeEndToken tok question
          titles patternStr batchScores = Except.ok res ∧
        res.length = batchScores.length) := by
  refine ⟨?_, ?_, ?_, ?_⟩
  · intro h1 h2
    simp only [get_ctx_scores]
    rw [if_neg h1, if_neg h2]
  · intro h1 h2 h3 hq hne
    subst hq
    cases batchScores with
    | nil => exact absurd rfl hne
    | cons b bs =>
      simp only [get_ctx_scores]
      rw [if_pos trivial]
      simp only [mapE]
      rw [aggregate_invalid_mode mode h1 h2 h3]
      rfl
  · intro hv hq e h
    have hclean : e = Err.emptyReduction ∨ e = Err.indexError ∨
        e = Err.assertionError := by
      rcases hq with rfl | rfl
      · simp only [get_ctx_scores] at h
        rw [if_pos trivial] at h
        obtain ⟨x, _, hfx⟩ := mapE_error_mem h
        exact Or.inl (aggregate_valid_error mode hv _ _ _ hfx)
      · simp only [get_ctx_scores] at h
        rw [if_pos trivial] at h
        rcases exceptBind_error h with h1 | ⟨starts, _, h2⟩
        · exact Or.inr (gcsi_error tok question titles patternStr e h1)
        · obtain ⟨x, _, hfx⟩ := mapE_error_mem h2
          exact Or.inl (aggregate_valid_error mode hv _ _ _ hfx)
    intro hic
    rcases hclean with rfl | rfl | rfl <;>
      rcases hic with ⟨s, hs⟩ | ⟨s, hs⟩ <;> cases hs
  · intro hv hq
    subst hq
    simp only [get_ctx_scores]
    rw [if_pos trivial]
    exact mapE_ok_of_forall
      (fun x _ => aggregate_ok_mean_sum mode hv includeEndToken x)

/-- Witness for C9 amended: an invalid question mode raises the invalid-
question-mode error; with one passage of scores `[1, 2]`, mean aggregation
over the nonempty batch succeeds with one score per passage. -/
theorem c9_invalid_config_amended_witness :
    get_ctx_scores "mean" "bogus" true trivTok "q" [] "p" [[1, 2]] =
        Except.error (Err.invalidQuestionMode "bogus") ∧
      ∃ res, get_ctx_scores "mean" "include" true trivTok "q" [] "p"
          [[1, 2]] = Except.ok res ∧ res.length = [[(1 : ℚ), 2]].length :=
  ⟨(c9_invalid_config_amended "mean" "bogus" true trivTok "q" [] "p"
      [[1, 2]]).1 (by decide) (by decide),
    (c9_invalid_config_amended "mean" "include" true trivTok "q" [] "p"
      [[1, 2]]).2.2.2 (Or.inl rfl) rfl⟩

/-! ## Claim C6 -/

theorem enumFrom_map_org (f : Nat × Ctx → Ctx)
    (hf : ∀ p, (f p).org_idx = p.2.org_idx) :
    ∀ (n : Nat) (l : List Ctx),
      ((List.enumFrom n l).map f).map Ctx.org_idx = l.map Ctx.org_idx := by
  intro n l
  induction l generalizing n with
  | nil => rfl
  | cons a t ih =>
    simp only [List.enumFrom, List.map_cons]
    rw [hf (n, a), ih (n + 1)]

theorem setCtxScores_map_org (idxs : List Nat) (scores : List ℚ)
    (ctxs : List Ctx) :
    (setCtxScores idxs scores ctxs).map Ctx.org_idx = ctxs.map Ctx.org_idx := by
  show ((List.enumFrom 0 ctxs).map _).map Ctx.org_idx = ctxs.map Ctx.org_idx
  apply enumFrom_map_org
  intro p
  by_cases hp : p.1 ∈ idxs <;> simp [hp]

theorem sentCompTexts_map_org (updates : Nat → Option String)
    (ctxs : List Ctx) :
    (sentCompTexts updates ctxs).map Ctx.org_idx = ctxs.map Ctx.org_idx := by
  show ((List.enumFrom 0 ctxs).map _).map Ctx.org_idx = ctxs.map Ctx.org_idx
  apply enumFrom_map_org
  intro p
  cases hu : updates p.1 <;> simp [hu]

theorem enumFrom_filter_snd_sublist (p : Nat × Ctx → Bool) :
    ∀ (n : Nat) (l : List Ctx),
      (((List.enumFrom n l).filter p).map Prod.snd).Sublist l := by
  intro n l
  induction l generalizing n with
  | nil => simp
  | cons a t ih =>
    simp only [List.enumFrom, List.filter_cons]
    cases hp : p (n, a)
    · simp only [Bool.false_eq_true, if_false]
      exact List.Sublist.cons a (ih (n + 1))
    · simp only [if_true, List.map_cons]
      exact List.Sublist.cons₂ a (ih (n + 1))

theorem removePassages_sublist (removalIdx : List Nat) (ctxs : List Ctx) :
    (removePassages removalIdx ctxs).Sublist ctxs :=
  enumFrom_filter_snd_sublist _ 0 ctxs

theorem zip_text_map_org :
    ∀ (l : List Ctx) (ts : List String),
      ((l.zip ts).map (fun p => { p.1 with text := p.2 })).map Ctx.org_idx =
        (l.take ts.length).map Ctx.org_idx := by
  intro l
  induction l with
  | nil => intro ts; simp
  | cons a t ih =>
    intro ts
    cases ts with
    | nil => simp
    | cons s ss => simp [List.zip_cons_cons, ih ss]

theorem compress_tokens_ctxs_map_org (texts : List String) (ctxs : List Ctx) :
    (compress_tokens_ctxs texts ctxs).map Ctx.org_idx =
      ctxs.map Ctx.org_idx := by
  simp only [compress_tokens_ctxs, List.map_append]
  rw [zip_text_map_org, ← List.map_append, List.take_append_drop]

theorem map_getD_sublist (l : List Ctx) (d : Ctx) (is : List Nat)
    (h1 : is.Pairwise (fun a b => a < b)) (h2 : ∀ i ∈ is, i < l.length) :
    (is.map (fun i => l.getD i d)).Sublist l := by
  have key : is.map (fun i => l.getD i d) =
      (is.pmap (fun i hi => (⟨i, hi⟩ : Fin l.length)) h2).map l.get := by
    rw [List.map_pmap]
    rw [← List.pmap_eq_map (fun i => i < l.length) (fun i => l.getD i d) is h2]
    apply List.pmap_congr
    intro i _ hi _
    rw [List.getD_eq_getElem l d hi, List.get_eq_getElem]
  rw [key]
  apply List.map_get_sublist
  rw [List.pairwise_pmap]
  exact h1.imp (fun hab => fun _ _ => hab)

theorem argsortDesc_nodup (s : List ℚ) : (argsortDesc s).Nodup := by
  show (argsortAsc s).reverse.Nodup
  rw [List.nodup_reverse]
  exact ((List.perm_insertionSort _ _).nodup_iff).mpr
    (List.nodup_range s.length)

theorem argsortDesc_mem_lt (s : List ℚ) (i : Nat) (h : i ∈ argsortDesc s) :
    i < s.length := by
  have h2 : i ∈ argsortAsc s := List.mem_reverse.mp h
  have h3 : i ∈ List.range s.length :=
    ((List.perm_insertionSort (scoreLE s) (List.range s.length)).mem_iff).mp h2
  exact List.mem_range.mp h3

theorem percentileSelect_ok_take (t : ℚ) (scores : List ℚ) (sel : List Nat)
    (h : percentileSelect t scores = Except.ok sel) :
    ∃ k, sel =
      (argsortDesc (scores.map (fun x => x / scores.sum))).take k := by
  simp only [percentileSelect] at h
  split at h
  · simp at h
  · simp only [Except.ok.injEq] at h
    exact ⟨_, h.symm⟩

theorem greedyCtxLoop_sel_take (compSent : Bool) (ctxCompLen : Int)
    (encLen : Nat → Int) :
    ∀ (idxs : List Nat) (initLen : Int),
      ∃ n, (greedyCtxLoop compSent ctxCompLen encLen initLen idxs).1 =
        idxs.take n := by
  intro idxs
  induction idxs with
  | nil => intro init; exact ⟨0, rfl⟩
  | cons i rest ih =>
    intro init
    by_cases hbr : compSent = false ∧
        |init - ctxCompLen| < |init + encLen i - ctxCompLen|
    · refine ⟨0, ?_⟩
      simp only [greedyCtxLoop]
      rw [if_pos hbr]
      rfl
    · by_cases hst : ctxCompLen ≤ init + encLen i
      · refine ⟨1, ?_⟩
        simp only [greedyCtxLoop]
        rw [if_neg hbr, if_pos hst]
        rfl
      · obtain ⟨n, hn⟩ := ih (init + encLen i)
        refine ⟨n + 1, ?_⟩
        simp only [greedyCtxLoop]
        rw [if_neg hbr, if_neg hst]
        simp [List.take_succ_cons, hn]

theorem ctxIndices_ok_nodup_lt (cum : Option ℚ) (compSent : Bool)
    (ctxCompLen initLen : Int) (encLen : Nat → Int) (scores : List ℚ)
    (sel : List Nat)
    (h : ctxIndices cum compSent ctxCompLen initLen encLen scores =
      Except.ok sel) :
    sel.Nodup ∧ ∀ i ∈ sel, i < scores.length := by
  cases cum with
  | some t =>
    simp only [ctxIndices] at h
    obtain ⟨k, hk⟩ := percentileSelect_ok_take t scores sel h
    subst hk
    refine ⟨(List.take_sublist _ _).nodup (argsortDesc_nodup _), ?_⟩
    intro i hi
    have hmem := (List.take_sublist k _).subset hi
    have hlt := argsortDesc_mem_lt _ i hmem
    simpa using hlt
  | none =>
    simp only [ctxIndices, Except.ok.injEq] at h
    subst h
    obtain ⟨n, hn⟩ :=
      greedyCtxLoop_sel_take compSent ctxCompLen encLen (argsortDesc scores)
        initLen
    rw [hn]
    refine ⟨(List.take_sublist _ _).nodup (argsortDesc_nodup _), ?_⟩
    intro i hi
    exact argsortDesc_mem_lt _ i ((List.take_sublist n _).subset hi)

theorem natSort_pairwise_lt (l : List Nat) (h : l.Nodup) :
    (natSort l).Pairwise (fun a b => a < b) := by
  have hs : List.Sorted (fun a b : Nat => a ≤ b) (natSort l) :=
    List.sorted_insertionSort _ l
  have hn : (natSort l).Nodup :=
    ((List.perm_insertionSort _ l).nodup_iff).mpr h
  exact (List.Pairwise.and hs hn).imp
    (fun hab => lt_of_le_of_ne hab.1 hab.2)

theorem get_ctx_scores_ok_length (mode qm : String) (incl : Bool) (tok : Tok)
    (q : String) (titles : List (Option String)) (pat : String)
    (bs : List (List ℚ)) (vals : List (Option ℚ))
    (h : get_ctx_scores mode qm incl tok q titles pat bs = Except.ok vals) :
    vals.length ≤ bs.length := by
  simp only [get_ctx_scores] at h
  by_cases h1 : qm = "include"
  · rw [if_pos h1] at h
    exact le_of_eq (mapE_ok_length h)
  · rw [if_neg h1] at h
    by_cases h2 : qm = "exclude"
    · rw [if_pos h2] at h
      obtain ⟨starts, _, h3⟩ := exceptBind_ok h
      have h4 := mapE_ok_length h3
      rw [List.length_map, List.length_zip] at h4
      omega
    · rw [if_neg h2] at h
      simp at h

theorem setCtxScores_length (idxs : List Nat) (scores : List ℚ)
    (ctxs : List Ctx) :
    (setCtxScores idxs scores ctxs).length = ctxs.length := by
  simp [setCtxScores]

/-- C6: with `do_sort_ctx = False`, the `org_idx` sequence of the final output
(after context selection, then any sentence-stage text rewriting and passage
removal, then the token-stage text rewriting) is a subsequence of the input
`org_idx` sequence in original relative order: context selection restores the
selected indices to ascending input order, and the later stages only rewrite
text or remove passages, never reorder. -/
theorem c6_order_preservation (ctxScoreMode questionMode : String)
    (includeEndToken compSent : Bool) (tok : Tok)
    (question patternStr : String) (ctxCompLen : Int)
    (ctxScoreCumsum : Option ℚ) (initLen : Int) (encLen : Nat → Int)
    (batchScores : List (List ℚ)) (batchTokenIds : List (List Int))
    (ctxs : List Ctx)
    (res : List (List ℚ) × List (List Int) × List Ctx × List Nat)
    (updates : Nat → Option String) (removalIdx : List Nat)
    (texts : List String)
    (hlen : batchScores.length ≤ ctxs.length)
    (h : compress_contexts false ctxScoreMode questionMode includeEndToken
      compSent tok question patternStr ctxCompLen ctxScoreCumsum initLen
      encLen batchScores batchTokenIds ctxs = Except.ok res) :
    ((compress_tokens_ctxs texts (removePassages removalIdx
        (sentCompTexts updates res.2.2.1))).map Ctx.org_idx).Sublist
      (ctxs.map Ctx.org_idx) := by
  simp only [compress_contexts] at h
  obtain ⟨vals, hvals, h⟩ := exceptBind_ok h
  obtain ⟨ctxScores, hcs, h⟩ := exceptBind_ok h
  obtain ⟨ctxIdx, hidx, h⟩ := exceptBind_ok h
  rw [Except.ok.injEq] at h
  have hscl : ctxScores.length ≤ ctxs.length := by
    have e1 : ctxScores.length = vals.length := mapE_ok_length hcs
    have e2 : vals.length ≤ batchScores.length :=
      get_ctx_scores_ok_length _ _ _ _ _ _ _ _ _ hvals
    omega
  obtain ⟨hnodup, hbound⟩ :=
    ctxIndices_ok_nodup_lt _ _ _ _ _ _ _ hidx
  subst h
  dsimp only
  simp only [Bool.false_eq_true, if_false]
  rw [compress_tokens_ctxs_map_org]
  refine List.Sublist.trans
    (List.Sublist.map Ctx.org_idx (removePassages_sublist removalIdx _)) ?_
  rw [sentCompTexts_map_org]
  refine List.Sublist.trans
    (List.Sublist.map Ctx.org_idx
      (map_getD_sublist _ default (natSort ctxIdx)
        (natSort_pairwise_lt ctxIdx hnodup) ?_)) ?_
  · intro i hi
    have hmem : i ∈ ctxIdx := (List.mem_insertionSort _).mp hi
    have := hbound i hmem
    rw [setCtxScores_length]
    omega
  · rw [setCtxScores_map_org]

/-- Witness for C6: one passage with `org_idx = 1`, greedy selection with a
zero target (nothing selected), no sentence rewrites, no removals, no token
texts: the empty final output is a subsequence of the input. -/
theorem c6_order_preservation_witness :
    ((compress_tokens_ctxs [] (removePassages []
        (sentCompTexts (fun _ => none)
          (([], [], [], []) : List (List ℚ) × List (List Int) × List Ctx ×
            List Nat).2.2.1))).map Ctx.org_idx).Sublist
      (([⟨"t", none, 1, 0⟩] : List Ctx).map Ctx.org_idx) :=
  c6_order_preservation "mean" "include" true false trivTok "q" "p" 0 none 0
    (fun _ => 1) [[1]] [[5]] [⟨"t", none, 1, 0⟩] ([], [], [], [])
    (fun _ => none) [] [] (by decide) (by decide)

end FiDcomp
